import Mathlib

/-!
Verification of the real-time chat room protocol and the TTL response cache
of the crypto-onboarding application.

The embedding follows the source:
* `getCachedData` / `setCachedData`   — src/api/routes/user.ts
* `joinRoom` / `sendMessage` / `leaveRoom` — src/api/socket/index.ts
* `messageSchemaValid` / `restPostMessage` — src/api/middleware/auth.ts
* `cleanupOldMessages` — src/supabase/migrations/001_initial_schema.sql

Network collaborators (user lookup, message persistence, history fetch) are
modelled as explicit parameters holding their results; the wall clock is an
explicit `Nat` parameter.
-/

/-! ### Response cache (src/api/routes/user.ts, getCachedData / setCachedData) -/

/-- One entry of the in-memory cache: `{ data, timestamp, ttl }`,
timestamps and ttl in milliseconds. -/
structure CacheEntry (α : Type) where
  data : α
  timestamp : Nat
  ttl : Nat

/-- The module-level `Map<string, …>`. -/
def Cache (α : Type) : Type := String → Option (CacheEntry α)

/-- `cache.delete(key)`. -/
def cacheDelete {α : Type} (c : Cache α) (key : String) : Cache α :=
  fun k => if k = key then none else c k

/-- `getCachedData(key)`, with `Date.now()` passed explicitly as `now`.
Returns the hit (if any) together with the cache after the call:
a present, unexpired entry is served untouched; otherwise the key is
deleted and the call misses. -/
def getCachedData {α : Type} (c : Cache α) (now : Nat) (key : String) :
    Option α × Cache α :=
  match c key with
  | some cached =>
      if now - cached.timestamp < cached.ttl then (some cached.data, c)
      else (none, cacheDelete c key)
  | none => (none, cacheDelete c key)

/-- `setCachedData(key, data, ttlMinutes)`: unconditional overwrite,
storing `ttl = ttlMinutes * 60 * 1000` and `timestamp = Date.now()`. -/
def setCachedData {α : Type} (c : Cache α) (now : Nat) (key : String)
    (data : α) (ttlMinutes : Nat) : Cache α :=
  fun k => if k = key then some ⟨data, now, ttlMinutes * 60 * 1000⟩ else c k

/-- C7: cache round-trip.  `Set` at time `t0` followed by `Get` at a later
time `t1`: while the elapsed time is strictly below the stored ttl the value
is served; once the ttl has elapsed the lookup misses and the entry is
evicted from the resulting cache. -/
theorem cache_roundtrip {α : Type} (c : Cache α) (k : String) (v : α)
    (ttlMinutes t0 t1 : Nat) :
    (t1 - t0 < ttlMinutes * 60 * 1000 →
      (getCachedData (setCachedData c t0 k v ttlMinutes) t1 k).1 = some v) ∧
    (ttlMinutes * 60 * 1000 ≤ t1 - t0 →
      (getCachedData (setCachedData c t0 k v ttlMinutes) t1 k).1 = none ∧
      (getCachedData (setCachedData c t0 k v ttlMinutes) t1 k).2 k = none) := by
  constructor
  · intro hlt
    simp [getCachedData, setCachedData, hlt]
  · intro hge
    have hnot : ¬ (t1 - t0 < ttlMinutes * 60 * 1000) := not_lt.mpr hge
    simp [getCachedData, setCachedData, cacheDelete, hnot]

/-- Witness for `cache_roundtrip`: a five-minute entry set at millisecond 0
is served at millisecond 1000 and is gone at millisecond 300000. -/
theorem cache_roundtrip_witness :
    (getCachedData (setCachedData (fun _ => none) 0 "trending_coins" 42 5)
        1000 "trending_coins").1 = some 42 ∧
    ((getCachedData (setCachedData (fun _ => none) 0 "trending_coins" 42 5)
        300000 "trending_coins").1 = none ∧
      (getCachedData (setCachedData (fun _ => none) 0 "trending_coins" 42 5)
        300000 "trending_coins").2 "trending_coins" = none) :=
  ⟨(cache_roundtrip (α := Nat) (fun _ => none) "trending_coins" 42 5 0 1000).1
      (by decide),
   (cache_roundtrip (α := Nat) (fun _ => none) "trending_coins" 42 5 0 300000).2
      (by decide)⟩

/-! ### Chat data model (table `chat_messages`, joined with `users`) -/

/-- One row of the `chat_messages` table as selected by the handlers
(`id, coin_id, content, created_at, users!inner(id, name, email)`),
plus the `is_deleted` flag the queries filter on.  `created_at` is a
millisecond timestamp. -/
structure MsgRow where
  id : String
  coin_id : String
  content : String
  created_at : Nat
  is_deleted : Bool
  user_id : String
  user_name : String
  user_email : String
deriving DecidableEq, Repr

/-- The shape broadcast to clients (`formattedMessage` in the handlers). -/
structure FormattedMessage where
  id : String
  coinId : String
  content : String
  createdAt : Nat
  userId : String
  userName : String
  userEmail : String
deriving DecidableEq, Repr

def formatMsg (m : MsgRow) : FormattedMessage :=
  ⟨m.id, m.coin_id, m.content, m.created_at, m.user_id, m.user_name, m.user_email⟩

/-- `ORDER BY created_at DESC`: `a` comes no later than `b`. -/
def byNewest (a b : MsgRow) : Prop := b.created_at ≤ a.created_at

instance : DecidableRel byNewest := fun a b =>
  inferInstanceAs (Decidable (b.created_at ≤ a.created_at))

instance : IsTotal MsgRow byNewest :=
  ⟨fun a b => Nat.le_total b.created_at a.created_at⟩

instance : IsTrans MsgRow byNewest :=
  ⟨fun _ _ _ hab hbc => Nat.le_trans hbc hab⟩

/-- The history query of `join_room`:
`.eq('coin_id', coinId).eq('is_deleted', false)
 .order('created_at', { ascending: false }).limit(50)`. -/
def fetchHistory (table : List MsgRow) (coinId : String) : List MsgRow :=
  ((table.filter
      (fun m => m.coin_id == coinId && m.is_deleted == false)).insertionSort
    byNewest).take 50

/-! ### Socket server state and events (src/api/socket/index.ts) -/

/-- The decoded token attached to the socket. -/
structure SocketUser where
  sub : String
  email : Option String
  name : Option String
deriving DecidableEq, Repr

/-- JavaScript `a || b` on an optional string: an absent or empty string
falls through to the default. -/
def jsOr (a : Option String) (b : String) : String :=
  match a with
  | some s => if s = "" then b else s
  | none => b

/-- JavaScript `String.prototype.trim`: strip leading and trailing
whitespace (structural, so that concrete instances evaluate). -/
def jsTrim (s : String) : String :=
  ⟨((s.data.dropWhile Char.isWhitespace).reverse.dropWhile
      Char.isWhitespace).reverse⟩

/-- `user.name || user.email?.split('@')[0] || 'Anonymous'`. -/
def displayName (u : SocketUser) : String :=
  jsOr u.name (jsOr (u.email.map (fun e => (e.splitOn "@").headD "")) "Anonymous")

/-- Addressing of an emitted event: `socket.emit` reaches one session,
`socket.to(room).emit` reaches the room minus the emitting session,
`chatNamespace.to(room).emit` reaches the whole room. -/
inductive Target where
  | session (sid : String)
  | roomExcept (room sid : String)
  | room (room : String)
deriving DecidableEq, Repr

/-- The payloads the chat handlers emit. -/
inductive Payload where
  | error (msg : String)
  | roomJoined (coinId : String) (messages : List FormattedMessage)
  | userJoined (username : String)
  | userLeft (username : String)
  | message (m : FormattedMessage)
deriving DecidableEq, Repr

structure Emit where
  target : Target
  payload : Payload
deriving DecidableEq, Repr

def isMessageEvent : Emit → Bool
  | ⟨_, .message _⟩ => true
  | _ => false

def isUserLeftEvent : Emit → Bool
  | ⟨_, .userLeft _⟩ => true
  | _ => false

def isErrorEvent : Emit → Bool
  | ⟨_, .error _⟩ => true
  | _ => false

/-- Server-side membership: for each session id, the set of rooms the
socket is in (socket.io's `socket.rooms` minus the socket's own id). -/
structure ServerState where
  mem : String → List String

/-- Whether session `s` receives event `e` given membership `st`. -/
def receivesB (st : ServerState) (s : String) (e : Emit) : Bool :=
  match e.target with
  | .session sid => s == sid
  | .roomExcept room sid => (st.mem s).contains room && s != sid
  | .room room => (st.mem s).contains room

/-- The `join_room` handler.  `fetchRes` is the storage collaborator's
answer to the history query (`none` = query error).  The handler leaves
every previous room (silently), joins `coinId`, and only then runs the
fetch, so the room switch survives a failed fetch. -/
def joinRoom (st : ServerState) (sid : String) (u : SocketUser)
    (coinId : String) (fetchRes : Option (List MsgRow)) :
    ServerState × List Emit :=
  if coinId = "" then
    (st, [⟨.session sid, .error "Coin ID is required"⟩])
  else
    let st2 : ServerState := ⟨fun s => if s = sid then [coinId] else st.mem s⟩
    match fetchRes with
    | none => (st2, [⟨.session sid, .error "Failed to load messages"⟩])
    | some msgs =>
        (st2,
         [⟨.session sid, .roomJoined coinId (msgs.reverse.map formatMsg)⟩,
          ⟨.roomExcept coinId sid, .userJoined (displayName u)⟩])

/-- The row handed to `.insert` by `send_message`. -/
structure InsertRow where
  coin_id : String
  user_id : String
  content : String
deriving DecidableEq, Repr

/-- Result of one `send_message`: the events emitted, and the row the
database persisted (`none` when validation, user lookup or the insert
itself failed, so no row was created). -/
structure SendOutcome where
  emits : List Emit
  inserted : Option InsertRow
deriving DecidableEq, Repr

/-- The `send_message` handler.  `userIdRes` is `getUserIdFromSub`'s
answer; `persistRes` is the insert's answer (`none` = insert failed). -/
def sendMessage (sid : String) (coinId message : String)
    (userIdRes : Option String) (persistRes : Option MsgRow) : SendOutcome :=
  if coinId = "" ∨ jsTrim message = "" then
    ⟨[⟨.session sid, .error "Coin ID and message are required"⟩], none⟩
  else if 500 < message.length then
    ⟨[⟨.session sid, .error "Message too long (max 500 characters)"⟩], none⟩
  else
    match userIdRes with
    | none => ⟨[⟨.session sid, .error "User not found"⟩], none⟩
    | some uid =>
        match persistRes with
        | none => ⟨[⟨.session sid, .error "Failed to send message"⟩], none⟩
        | some nm =>
            ⟨[⟨.room coinId, .message (formatMsg nm)⟩],
             some ⟨coinId, uid, jsTrim message⟩⟩

/-- The `leave_room` handler: with a non-empty room id it always leaves
the room (a no-op when not a member) and always emits `user_left` to the
room excluding the leaver. -/
def leaveRoom (st : ServerState) (sid : String) (u : SocketUser)
    (coinId : String) : ServerState × List Emit :=
  if coinId = "" then (st, [])
  else
    (⟨fun s => if s = sid then (st.mem s).filter (fun r => r ≠ coinId)
               else st.mem s⟩,
     [⟨.roomExcept coinId sid, .userLeft (displayName u)⟩])

/-- Transport disconnect: socket.io drops all of the session's rooms. -/
def disconnectSession (st : ServerState) (sid : String) : ServerState :=
  ⟨fun s => if s = sid then [] else st.mem s⟩

/-! ### Concrete fixtures used by witnesses -/

def demoUser : SocketUser := ⟨"auth0|1", some "alice@example.com", some "Alice"⟩

def demoRow : MsgRow :=
  ⟨"m1", "bitcoin", "hello", 100, false, "u1", "Alice", "alice@example.com"⟩

/-- Two sessions, both in room `"bitcoin"`. -/
def demoState : ServerState :=
  ⟨fun s => if s = "s1" then ["bitcoin"]
            else if s = "s2" then ["bitcoin"] else []⟩

/-! ### C1, C3: send_message -/

/-- C1: a `send_message` that passes validation and persists successfully
emits exactly one event — a `message` broadcast to the target room carrying
the persisted row (in particular its identifier) — and every session
currently joined to that room, the sender included, receives exactly one
`message` event. -/
theorem send_message_broadcast_once (st : ServerState)
    (sid coinId message uid : String) (nm : MsgRow)
    (hc : coinId ≠ "") (hm : jsTrim message ≠ "") (hlen : message.length ≤ 500) :
    (sendMessage sid coinId message (some uid) (some nm)).emits
      = [⟨.room coinId, .message (formatMsg nm)⟩]
    ∧ (formatMsg nm).id = nm.id
    ∧ ∀ s, coinId ∈ st.mem s →
        ((sendMessage sid coinId message (some uid) (some nm)).emits.countP
          (fun e => receivesB st s e && isMessageEvent e)) = 1 := by
  have he : (sendMessage sid coinId message (some uid) (some nm)).emits
      = [⟨.room coinId, .message (formatMsg nm)⟩] := by
    simp [sendMessage, hc, hm, Nat.not_lt.mpr hlen]
  refine ⟨he, rfl, ?_⟩
  intro s hs
  simp [he, receivesB, isMessageEvent, List.countP_cons, hs]

/-- Witness for `send_message_broadcast_once`: both sessions of `demoState`
(the sender `"s1"` and the bystander `"s2"`) receive the broadcast once. -/
theorem send_message_broadcast_once_witness :
    (sendMessage "s1" "bitcoin" "hello" (some "u1") (some demoRow)).emits
      = [⟨.room "bitcoin", .message (formatMsg demoRow)⟩]
    ∧ ((sendMessage "s1" "bitcoin" "hello" (some "u1") (some demoRow)).emits.countP
        (fun e => receivesB demoState "s1" e && isMessageEvent e)) = 1
    ∧ ((sendMessage "s1" "bitcoin" "hello" (some "u1") (some demoRow)).emits.countP
        (fun e => receivesB demoState "s2" e && isMessageEvent e)) = 1 := by
  have h := send_message_broadcast_once demoState "s1" "bitcoin" "hello" "u1"
    demoRow (by decide) (by decide) (by decide)
  exact ⟨h.1, h.2.2 "s1" (by decide), h.2.2 "s2" (by decide)⟩

/-- C3: when the insert fails, `send_message` emits exactly one event, a
sender-only `error`, persists nothing, broadcasts no `message` event, and
no session other than the sender receives anything. -/
theorem send_message_persist_failure (st : ServerState)
    (sid coinId message uid : String)
    (hc : coinId ≠ "") (hm : jsTrim message ≠ "") (hlen : message.length ≤ 500) :
    (sendMessage sid coinId message (some uid) none).emits
      = [⟨.session sid, .error "Failed to send message"⟩]
    ∧ (sendMessage sid coinId message (some uid) none).inserted = none
    ∧ (∀ e ∈ (sendMessage sid coinId message (some uid) none).emits,
        isMessageEvent e = false)
    ∧ ∀ s, s ≠ sid →
        ((sendMessage sid coinId message (some uid) none).emits.countP
          (receivesB st s)) = 0 := by
  have he : (sendMessage sid coinId message (some uid) none).emits
      = [⟨.session sid, .error "Failed to send message"⟩] := by
    simp [sendMessage, hc, hm, Nat.not_lt.mpr hlen]
  have hi : (sendMessage sid coinId message (some uid) none).inserted = none := by
    simp [sendMessage, hc, hm, Nat.not_lt.mpr hlen]
  refine ⟨he, hi, ?_, ?_⟩
  · intro e hme
    rw [he] at hme
    simp only [List.mem_singleton] at hme
    subst hme
    rfl
  · intro s hs
    simp [he, receivesB, List.countP_cons, hs]

/-- Witness for `send_message_persist_failure`: failed insert for `"s1"`,
bystander `"s2"` receives nothing. -/
theorem send_message_persist_failure_witness :
    (sendMessage "s1" "bitcoin" "hello" (some "u1") none).emits
      = [⟨.session "s1", .error "Failed to send message"⟩]
    ∧ (sendMessage "s1" "bitcoin" "hello" (some "u1") none).inserted = none
    ∧ ((sendMessage "s1" "bitcoin" "hello" (some "u1") none).emits.countP
        (receivesB demoState "s2")) = 0 := by
  have h := send_message_persist_failure demoState "s1" "bitcoin" "hello" "u1"
    (by decide) (by decide) (by decide)
  exact ⟨h.1, h.2.1, h.2.2.2 "s2" (by decide)⟩

/-! ### C2: join_room history snapshot -/

/-- A concrete table: three bitcoin rows (one soft-deleted) and one
ethereum row. -/
def demoTable : List MsgRow :=
  [⟨"m1", "bitcoin", "old", 1, false, "u1", "Alice", "alice@example.com"⟩,
   ⟨"m2", "bitcoin", "gone", 2, true, "u1", "Alice", "alice@example.com"⟩,
   ⟨"m3", "ethereum", "other", 3, false, "u2", "Bob", "bob@example.com"⟩,
   ⟨"m4", "bitcoin", "new", 4, false, "u1", "Alice", "alice@example.com"⟩]

/-- C2: when the history fetch answers the `join_room` query, the snapshot
delivered privately to the joining session is the fetched page reversed to
oldest-first: it holds at most 50 messages, their creation times ascend,
and every one is a non-deleted message of the requested room. -/
theorem join_room_history_snapshot (table : List MsgRow) (st : ServerState)
    (sid : String) (u : SocketUser) (coinId : String) (hc : coinId ≠ "") :
    (joinRoom st sid u coinId (some (fetchHistory table coinId))).2
      = [⟨.session sid, .roomJoined coinId
            ((fetchHistory table coinId).reverse.map formatMsg)⟩,
         ⟨.roomExcept coinId sid, .userJoined (displayName u)⟩]
    ∧ (fetchHistory table coinId).reverse.length ≤ 50
    ∧ List.Sorted (· ≤ ·)
        ((fetchHistory table coinId).reverse.map (fun m => m.created_at))
    ∧ ∀ m ∈ (fetchHistory table coinId).reverse,
        m.is_deleted = false ∧ m.coin_id = coinId := by
  refine ⟨by simp [joinRoom, hc], ?_, ?_, ?_⟩
  · simp only [fetchHistory, List.length_reverse, List.length_take]
    exact min_le_left _ _
  · have h1 : List.Sorted byNewest
        ((table.filter
          (fun m => m.coin_id == coinId && m.is_deleted == false)).insertionSort
          byNewest) :=
      List.sorted_insertionSort byNewest _
    have h2 : List.Sorted byNewest (fetchHistory table coinId) :=
      List.Pairwise.sublist (List.take_sublist _ _) h1
    have h3 : (fetchHistory table coinId).reverse.Pairwise
        (fun a b => a.created_at ≤ b.created_at) :=
      List.pairwise_reverse.mpr h2
    exact List.pairwise_map.mpr h3
  · intro m hm
    rw [List.mem_reverse] at hm
    have hm2 := List.take_subset _ _ hm
    have hm3 := (List.perm_insertionSort byNewest _).mem_iff.mp hm2
    have hprop := (List.mem_filter.mp hm3).2
    simp only [Bool.and_eq_true, beq_iff_eq] at hprop
    exact ⟨hprop.2, hprop.1⟩

/-- Witness for `join_room_history_snapshot` on `demoTable`. -/
theorem join_room_history_snapshot_witness :
    (joinRoom demoState "s1" demoUser "bitcoin"
        (some (fetchHistory demoTable "bitcoin"))).2
      = [⟨.session "s1", .roomJoined "bitcoin"
            ((fetchHistory demoTable "bitcoin").reverse.map formatMsg)⟩,
         ⟨.roomExcept "bitcoin" "s1", .userJoined (displayName demoUser)⟩]
    ∧ (fetchHistory demoTable "bitcoin").reverse.length ≤ 50
    ∧ List.Sorted (· ≤ ·)
        ((fetchHistory demoTable "bitcoin").reverse.map (fun m => m.created_at))
    ∧ ∀ m ∈ (fetchHistory demoTable "bitcoin").reverse,
        m.is_deleted = false ∧ m.coin_id = "bitcoin" :=
  join_room_history_snapshot demoTable demoState "s1" demoUser "bitcoin"
    (by decide)

/-! ### C4: join_room while already in a room -/

/-- C4 counterexample: `"s1"` and `"s2"` are both in room `"bitcoin"`;
`"s1"` joins `"ethereum"`.  The room switch happens, but the handler's
leave-previous-rooms loop is silent: no `user_left` event is emitted at
all, so the remaining member `"s2"` receives none — contrary to the
claimed "user left" notice to room `a`. -/
theorem join_room_no_user_left_counterexample :
    demoState.mem "s1" = ["bitcoin"]
    ∧ demoState.mem "s2" = ["bitcoin"]
    ∧ (joinRoom demoState "s1" demoUser "ethereum" (some [])).1.mem "s1"
        = ["ethereum"]
    ∧ (joinRoom demoState "s1" demoUser "ethereum" (some [])).2.countP
        isUserLeftEvent = 0
    ∧ (joinRoom demoState "s1" demoUser "ethereum" (some [])).2.countP
        (fun e =>
          receivesB (joinRoom demoState "s1" demoUser "ethereum" (some [])).1
            "s2" e && isUserLeftEvent e) = 0 := by
  decide

/-- C4 amended: joining room `b` from room `a` removes the session from
`a` and puts it in `b`, delivers the history snapshot privately, and
broadcasts `user_joined` to `b` excluding the joiner — but emits no
"user left" notice to `a` (the implicit leave is silent). -/
theorem join_room_switch (st : ServerState) (sid a b : String)
    (u : SocketUser) (msgs : List MsgRow) (hb : b ≠ "") :
    (joinRoom st sid u b (some msgs)).1.mem sid = [b]
    ∧ (a ≠ b → a ∉ (joinRoom st sid u b (some msgs)).1.mem sid)
    ∧ (joinRoom st sid u b (some msgs)).2
        = [⟨.session sid, .roomJoined b (msgs.reverse.map formatMsg)⟩,
           ⟨.roomExcept b sid, .userJoined (displayName u)⟩]
    ∧ (joinRoom st sid u b (some msgs)).2.countP isUserLeftEvent = 0 := by
  refine ⟨by simp [joinRoom, hb], ?_, by simp [joinRoom, hb], ?_⟩
  · intro hab
    simp [joinRoom, hb, hab]
  · simp [joinRoom, hb, isUserLeftEvent]

/-- Witness for `join_room_switch`: `"s1"` moves from `"bitcoin"` to
`"ethereum"`. -/
theorem join_room_switch_witness :
    (joinRoom demoState "s1" demoUser "ethereum" (some demoTable)).1.mem "s1"
      = ["ethereum"]
    ∧ "bitcoin" ∉ (joinRoom demoState "s1" demoUser "ethereum"
        (some demoTable)).1.mem "s1"
    ∧ (joinRoom demoState "s1" demoUser "ethereum" (some demoTable)).2
        = [⟨.session "s1", .roomJoined "ethereum"
              (demoTable.reverse.map formatMsg)⟩,
           ⟨.roomExcept "ethereum" "s1", .userJoined (displayName demoUser)⟩]
    ∧ (joinRoom demoState "s1" demoUser "ethereum"
        (some demoTable)).2.countP isUserLeftEvent = 0 := by
  have h := join_room_switch demoState "s1" "bitcoin" "ethereum" demoUser
    demoTable (by decide)
  exact ⟨h.1, h.2.1 (by decide), h.2.2.1, h.2.2.2⟩

/-! ### C5: leave_room idempotence -/

/-- C5 counterexample: `"s1"` and `"s2"` are both in `"bitcoin"`; `"s1"`
calls `leave_room("bitcoin")` twice.  The remaining member `"s2"`
receives a `user_left` broadcast from each call — two in total, and in
particular the second call is not broadcast-free. -/
theorem leave_room_twice_counterexample :
    (leaveRoom demoState "s1" demoUser "bitcoin").2.countP
      (fun e =>
        receivesB (leaveRoom demoState "s1" demoUser "bitcoin").1 "s2" e &&
        isUserLeftEvent e) = 1
    ∧ (leaveRoom (leaveRoom demoState "s1" demoUser "bitcoin").1 "s1" demoUser
        "bitcoin").2.countP
        (fun e =>
          receivesB
            (leaveRoom (leaveRoom demoState "s1" demoUser "bitcoin").1 "s1"
              demoUser "bitcoin").1 "s2" e && isUserLeftEvent e) = 1 := by
  decide

/-- C5 amended: calling `leave_room(r)` twice in a row raises no error and
the second call leaves the membership unchanged, but each call emits its
own `user_left` broadcast to the room — two in total, the handler emits
unconditionally. -/
theorem leave_room_twice (st : ServerState) (sid r : String)
    (u : SocketUser) (hr : r ≠ "") :
    (leaveRoom st sid u r).2
      = [⟨.roomExcept r sid, .userLeft (displayName u)⟩]
    ∧ (leaveRoom (leaveRoom st sid u r).1 sid u r).2
        = [⟨.roomExcept r sid, .userLeft (displayName u)⟩]
    ∧ (leaveRoom (leaveRoom st sid u r).1 sid u r).1.mem sid
        = (leaveRoom st sid u r).1.mem sid
    ∧ ∀ e ∈ (leaveRoom (leaveRoom st sid u r).1 sid u r).2,
        isErrorEvent e = false := by
  refine ⟨by simp [leaveRoom, hr], by simp [leaveRoom, hr], ?_, ?_⟩
  · simp [leaveRoom, hr, List.filter_filter]
  · intro e he
    simp only [leaveRoom, if_neg hr, List.mem_singleton] at he
    subst he
    rfl

/-- Witness for `leave_room_twice` at `demoState`. -/
theorem leave_room_twice_witness :
    (leaveRoom demoState "s1" demoUser "bitcoin").2
      = [⟨.roomExcept "bitcoin" "s1", .userLeft (displayName demoUser)⟩]
    ∧ (leaveRoom (leaveRoom demoState "s1" demoUser "bitcoin").1 "s1" demoUser
        "bitcoin").2
        = [⟨.roomExcept "bitcoin" "s1", .userLeft (displayName demoUser)⟩]
    ∧ (leaveRoom (leaveRoom demoState "s1" demoUser "bitcoin").1 "s1" demoUser
        "bitcoin").1.mem "s1"
        = (leaveRoom demoState "s1" demoUser "bitcoin").1.mem "s1"
    ∧ ∀ e ∈ (leaveRoom (leaveRoom demoState "s1" demoUser "bitcoin").1 "s1"
        demoUser "bitcoin").2, isErrorEvent e = false :=
  leave_room_twice demoState "s1" "bitcoin" demoUser (by decide)

/-! ### C6: membership invariant over operation sequences -/

/-- The room-affecting operations of the chat namespace. -/
inductive Op where
  | join (sid coinId : String)
  | leave (sid coinId : String)
  | disconnect (sid : String)
deriving DecidableEq, Repr

/-- Membership effect of one operation (the state component of the
corresponding handler; join and leave are no-ops on an empty room id,
matching the handlers' guards). -/
def step (st : ServerState) : Op → ServerState
  | .join s c =>
      if c = "" then st
      else ⟨fun x => if x = s then [c] else st.mem x⟩
  | .leave s c =>
      if c = "" then st
      else ⟨fun x => if x = s then (st.mem x).filter (fun r => r ≠ c)
                     else st.mem x⟩
  | .disconnect s => ⟨fun x => if x = s then [] else st.mem x⟩

/-- `step` on a join is exactly the state change of the `join_room`
handler, whatever the user and the fetch outcome. -/
theorem joinRoom_state_eq_step (st : ServerState) (sid : String)
    (u : SocketUser) (c : String) (fetchRes : Option (List MsgRow)) :
    (joinRoom st sid u c fetchRes).1 = step st (.join sid c) := by
  by_cases hc : c = "" <;> cases fetchRes <;> simp [joinRoom, step, hc]

/-- `step` on a leave is exactly the state change of the `leave_room`
handler. -/
theorem leaveRoom_state_eq_step (st : ServerState) (sid : String)
    (u : SocketUser) (c : String) :
    (leaveRoom st sid u c).1 = step st (.leave sid c) := by
  by_cases hc : c = "" <;> simp [leaveRoom, step, hc]

/-- `step` on a disconnect is exactly `disconnectSession`. -/
theorem disconnect_state_eq_step (st : ServerState) (sid : String) :
    disconnectSession st sid = step st (.disconnect sid) := rfl

/-- The fresh server: nobody is in any room. -/
def initState : ServerState := ⟨fun _ => []⟩

/-- Run a sequence of operations from the fresh server. -/
def exec (ops : List Op) : ServerState := ops.foldl step initState

/-- Whether an operation can change session `sid`'s membership in room
`roomId`: any effective join by `sid` (it switches rooms), an effective
leave of `roomId` by `sid`, or a disconnect of `sid`. -/
def affects (sid roomId : String) : Op → Bool
  | .join s c => s == sid && c != ""
  | .leave s c => s == sid && c == roomId && c != ""
  | .disconnect s => s == sid

theorem exec_append_op (ops : List Op) (op : Op) :
    exec (ops ++ [op]) = step (exec ops) op := by
  simp [exec, List.foldl_append]

theorem step_mem_of_affects (st : ServerState) (sid roomId : String)
    (op : Op) (h : affects sid roomId op = true) :
    (roomId ∈ (step st op).mem sid ↔ op = Op.join sid roomId) := by
  cases op with
  | join s c =>
      simp only [affects, Bool.and_eq_true, beq_iff_eq, bne_iff_ne] at h
      obtain ⟨hs, hc⟩ := h
      subst hs
      simp [step, hc, eq_comm]
  | leave s c =>
      simp only [affects, Bool.and_eq_true, beq_iff_eq, bne_iff_ne] at h
      obtain ⟨⟨hs, hcr⟩, hc⟩ := h
      subst hs
      subst hcr
      simp [step, hc]
  | disconnect s =>
      simp only [affects, beq_iff_eq] at h
      subst h
      simp [step]

theorem step_mem_of_not_affects (st : ServerState) (sid roomId : String)
    (op : Op) (h : affects sid roomId op = false) :
    (roomId ∈ (step st op).mem sid ↔ roomId ∈ st.mem sid) := by
  cases op with
  | join s c =>
      simp only [affects, Bool.and_eq_false_iff, beq_eq_false_iff_ne,
        bne_eq_false_iff_eq, ne_eq] at h
      rcases h with hs | hc
      · by_cases hce : c = "" <;> simp [step, hce, Ne.symm hs]
      · simp [step, hc]
  | leave s c =>
      simp only [affects, Bool.and_eq_false_iff, beq_eq_false_iff_ne,
        bne_eq_false_iff_eq, ne_eq] at h
      rcases h with hs | hc
      · rcases hs with hs | hcr
        · by_cases hce : c = "" <;> simp [step, hce, Ne.symm hs]
        · by_cases hce : c = ""
          · simp [step, hce]
          · have hrc : roomId ≠ c := fun hh => hcr hh.symm
            by_cases hse : sid = s
            · subst hse
              simp [step, hce, List.mem_filter, hrc]
            · simp [step, hce, hse]
      · simp [step, hc]
  | disconnect s =>
      simp only [affects, beq_eq_false_iff_ne, ne_eq] at h
      simp [step, Ne.symm h]

theorem step_mem_length_le_one (st : ServerState)
    (h : ∀ s, (st.mem s).length ≤ 1) (op : Op) :
    ∀ s, ((step st op).mem s).length ≤ 1 := by
  cases op with
  | join s c =>
      intro x
      by_cases hc : c = ""
      · simpa [step, hc] using h x
      · simp only [step, if_neg hc]
        by_cases hx : x = s
        · simp [hx]
        · simpa [hx] using h x
  | leave s c =>
      intro x
      by_cases hc : c = ""
      · simpa [step, hc] using h x
      · simp only [step, if_neg hc]
        by_cases hx : x = s
        · simp only [hx, if_pos rfl]
          exact le_trans (List.length_filter_le _ _) (h s)
        · simpa [hx] using h x
  | disconnect s =>
      intro x
      by_cases hx : x = s
      · simp [step, hx]
      · simpa [step, hx] using h x

theorem exec_mem_length_le_one (ops : List Op) :
    ∀ s, ((exec ops).mem s).length ≤ 1 := by
  suffices hgen : ∀ (l : List Op) (st : ServerState),
      (∀ s, (st.mem s).length ≤ 1) →
      ∀ s, ((l.foldl step st).mem s).length ≤ 1 by
    exact hgen ops initState (fun _ => by simp [initState])
  intro l
  induction l with
  | nil => intro st h s; exact h s
  | cons op rest ih =>
      intro st h s
      exact ih (step st op) (step_mem_length_le_one st h op) s

theorem eq_of_mem_of_length_le_one {α : Type} {l : List α}
    (h : l.length ≤ 1) {a b : α} (ha : a ∈ l) (hb : b ∈ l) : a = b := by
  cases l with
  | nil => cases ha
  | cons x t =>
      cases t with
      | nil =>
          rw [List.mem_singleton] at ha hb
          rw [ha, hb]
      | cons y u =>
          exfalso
          simp only [List.length_cons] at h
          omega

/-- C6: after any sequence of joins, leaves and disconnects run from the
fresh server, a session is in a room exactly when the most recent
operation affecting its membership in that room (a join by the session,
a leave of that room by the session, or its disconnect) is a join of that
room; and no session is ever in two rooms at once. -/
theorem room_membership_invariant (ops : List Op) (sid roomId : String) :
    (roomId ∈ (exec ops).mem sid ↔
      (ops.filter (affects sid roomId)).getLast? = some (Op.join sid roomId))
    ∧ ∀ r1 r2, r1 ∈ (exec ops).mem sid → r2 ∈ (exec ops).mem sid →
        r1 = r2 := by
  constructor
  · induction ops using List.reverseRecOn with
    | nil => simp [exec, initState]
    | append_singleton rest op ih =>
        rw [exec_append_op, List.filter_append]
        by_cases haff : affects sid roomId op = true
        · rw [step_mem_of_affects _ _ _ _ haff]
          have hfil : List.filter (affects sid roomId) [op] = [op] := by
            simp [List.filter_cons, haff]
          rw [hfil, List.getLast?_concat]
          simp
        · have haf : affects sid roomId op = false := by simpa using haff
          rw [step_mem_of_not_affects _ _ _ _ haf]
          simpa [List.filter_cons, haf] using ih
  · intro r1 r2 h1 h2
    exact eq_of_mem_of_length_le_one (exec_mem_length_le_one ops sid) h1 h2

/-! ### Retention sweep (cleanup_old_messages, 001_initial_schema.sql) -/

/-- The rows of one partition the subquery ranks: non-deleted rows of one
room. -/
def roomLive (coinId : String) (m : MsgRow) : Bool :=
  m.coin_id == coinId && m.is_deleted == false

/-- The ids ranked `rn <= 50` inside one partition of
`ROW_NUMBER() OVER (PARTITION BY coin_id ORDER BY created_at DESC)`
computed over the non-deleted rows: sort the partition newest-first
(stably) and keep the first 50 ids. -/
def keepIds (table : List MsgRow) (coinId : String) : List String :=
  ((((table.filter (roomLive coinId)).insertionSort
      byNewest).take 50).map (fun m => m.id))

/-- The coin ids appearing in the table (the partitions). -/
def coinIds (table : List MsgRow) : List String :=
  (table.map (fun m => m.coin_id)).dedup

/-- The full keep set of the subquery: the union of every partition's
top-50 ids. -/
def keepIdsAll (table : List MsgRow) : List String :=
  (coinIds table).flatMap (fun c => keepIds table c)

/-- `cleanup_old_messages()`:
`DELETE FROM chat_messages WHERE id NOT IN (… rn <= 50 …)` — a row
survives exactly when its id is in the keep set. -/
def cleanupOldMessages (table : List MsgRow) : List MsgRow :=
  table.filter (fun m => (keepIdsAll table).contains m.id)

/-- Number of strictly newer non-deleted rows of the same room — the
rank (minus one) of a row under `ORDER BY created_at DESC` when creation
times are distinct. -/
def newerCount (table : List MsgRow) (coinId : String) (m : MsgRow) : Nat :=
  ((table.filter (roomLive coinId)).countP
    (fun x => m.created_at < x.created_at))

theorem mem_table_of_mem_keepIds (table : List MsgRow) (c : String)
    {i : String} (hi : i ∈ keepIds table c) :
    ∃ m ∈ table, m.id = i ∧ m.coin_id = c ∧ m.is_deleted = false := by
  obtain ⟨m, hm, hid⟩ := List.mem_map.mp hi
  have hm2 := List.take_subset _ _ hm
  have hm3 := (List.perm_insertionSort byNewest _).mem_iff.mp hm2
  have hprop := (List.mem_filter.mp hm3).2
  simp only [roomLive, Bool.and_eq_true, beq_iff_eq] at hprop
  exact ⟨m, (List.mem_filter.mp hm3).1, hid, hprop.1, hprop.2⟩

/-- A `byNewest`-sorted list with pairwise-distinct creation times is
strictly descending in creation time. -/
theorem pairwise_strict_of_sorted_nodup :
    ∀ {l : List MsgRow}, l.Pairwise byNewest →
      (l.map (fun m => m.created_at)).Nodup →
      l.Pairwise (fun a b => b.created_at < a.created_at) := by
  intro l
  induction l with
  | nil => intro _ _; exact List.Pairwise.nil
  | cons a t ih =>
      intro hs hn
      obtain ⟨h1, h2⟩ := List.pairwise_cons.mp hs
      have hcons : (a.created_at :: t.map (fun m => m.created_at)).Nodup := by
        simpa using hn
      obtain ⟨hnotmem, hn2⟩ := List.nodup_cons.mp hcons
      have hfa : ∀ b ∈ t, a.created_at ≠ b.created_at := by
        intro b hb he
        exact hnotmem (by rw [he]; exact List.mem_map_of_mem _ hb)
      refine List.pairwise_cons.mpr ⟨fun b hb => ?_, ih h2 hn2⟩
      exact lt_of_le_of_ne (h1 b hb) (fun he => hfa b hb he.symm)

/-- In a strictly descending list, an element is among the first `k`
exactly when fewer than `k` elements are strictly newer. -/
theorem mem_take_sorted_iff :
    ∀ {l : List MsgRow} (k : Nat),
      l.Pairwise (fun a b => b.created_at < a.created_at) →
      ∀ {m : MsgRow}, m ∈ l →
      (m ∈ l.take k ↔
        l.countP (fun x => m.created_at < x.created_at) < k) := by
  intro l
  induction l with
  | nil => intro k _ m hm; cases hm
  | cons a t ih =>
      intro k hs m hm
      obtain ⟨ha, ht⟩ := List.pairwise_cons.mp hs
      cases k with
      | zero => simp
      | succ k =>
          rw [List.take_succ_cons]
          rcases List.mem_cons.mp hm with hma | hmt
          · subst hma
            have hct : t.countP
                (fun x => decide (m.created_at < x.created_at)) = 0 := by
              rw [List.countP_eq_zero]
              intro x hx
              simpa using Nat.lt_asymm (ha x hx)
            have hpa : (decide (m.created_at < m.created_at)) = false := by
              simp
            simp [List.countP_cons, hct, hpa]
          · have hlt : m.created_at < a.created_at := ha m hmt
            have hmna : m ≠ a := by
              intro he
              rw [he] at hlt
              exact lt_irrefl _ hlt
            rw [List.countP_cons]
            have hpa : (decide (m.created_at < a.created_at)) = true := by
              simpa using hlt
            rw [hpa]
            simp only [if_true]
            constructor
            · intro hmem
              rcases List.mem_cons.mp hmem with he | htk
              · exact absurd he hmna
              · have h5 := (ih k ht hmt).mp htk
                omega
            · intro hcnt
              have h6 : t.countP
                  (fun x => decide (m.created_at < x.created_at)) < k := by
                omega
              exact List.mem_cons_of_mem a ((ih k ht hmt).mpr h6)

/-- A row of the partition is in the keep set exactly when it is among the
first 50 of its partition sorted newest-first. -/
theorem contains_keepIdsAll_iff (table : List MsgRow) (coinId : String)
    (hid : (table.map (fun m => m.id)).Nodup)
    {m : MsgRow} (hm : m ∈ table) (hPm : roomLive coinId m = true) :
    ((keepIdsAll table).contains m.id = true ↔
      m ∈ ((table.filter (roomLive coinId)).insertionSort byNewest).take 50) := by
  have hPm2 := hPm
  simp only [roomLive, Bool.and_eq_true, beq_iff_eq] at hPm2
  constructor
  · intro hcont
    have h2 : m.id ∈ keepIdsAll table := by
      simpa [List.contains, List.elem_iff] using hcont
    obtain ⟨c, hcmem, hkeep⟩ := List.mem_flatMap.mp h2
    obtain ⟨m', hm'tab, hid', hcoin', _⟩ := mem_table_of_mem_keepIds table c hkeep
    have heq : m' = m := List.inj_on_of_nodup_map hid hm'tab hm hid'
    subst heq
    have hc : c = coinId := by
      rw [← hcoin']
      exact hPm2.1
    subst hc
    obtain ⟨x, hx, hxid⟩ := List.mem_map.mp hkeep
    have hxtab : x ∈ table := by
      have hx2 := List.take_subset _ _ hx
      have hx3 := (List.perm_insertionSort byNewest _).mem_iff.mp hx2
      exact (List.mem_filter.mp hx3).1
    have hxm : x = m' := List.inj_on_of_nodup_map hid hxtab hm'tab hxid
    rwa [hxm] at hx
  · intro htk
    have hidmem : m.id ∈ keepIds table coinId := List.mem_map_of_mem _ htk
    have hcmem : coinId ∈ coinIds table := by
      have h4 : coinId ∈ table.map (fun x => x.coin_id) := by
        rw [← hPm2.1]
        exact List.mem_map_of_mem _ hm
      exact List.mem_dedup.mpr h4
    have h5 : m.id ∈ keepIdsAll table :=
      List.mem_flatMap.mpr ⟨coinId, hcmem, hidmem⟩
    simpa [List.contains, List.elem_iff] using h5

/-- C10: every run of the sweep hard-deletes every soft-deleted row —
the keep set is built only from rows with `is_deleted = false`, so no
soft-deleted row's id can be in it. -/
theorem cleanup_removes_soft_deleted (table : List MsgRow)
    (hid : (table.map (fun m => m.id)).Nodup) :
    ∀ m ∈ table, m.is_deleted = true → m ∉ cleanupOldMessages table := by
  intro m hm hdel hmem
  have h1 := (List.mem_filter.mp hmem).2
  have h2 : m.id ∈ keepIdsAll table := by
    simpa [List.contains, List.elem_iff] using h1
  obtain ⟨c, _, hkeep⟩ := List.mem_flatMap.mp h2
  obtain ⟨m', hm'tab, hid', _, hdel'⟩ := mem_table_of_mem_keepIds table c hkeep
  have heq : m' = m := List.inj_on_of_nodup_map hid hm'tab hm hid'
  rw [heq] at hdel'
  rw [hdel'] at hdel
  exact Bool.false_ne_true hdel

/-- Witness for `cleanup_removes_soft_deleted`: the soft-deleted row
`"m2"` of `demoTable` does not survive the sweep. -/
theorem cleanup_removes_soft_deleted_witness :
    (⟨"m2", "bitcoin", "gone", 2, true, "u1", "Alice",
        "alice@example.com"⟩ : MsgRow) ∉ cleanupOldMessages demoTable :=
  cleanup_removes_soft_deleted demoTable (by decide)
    ⟨"m2", "bitcoin", "gone", 2, true, "u1", "Alice", "alice@example.com"⟩
    (by decide) (by decide)

/-- C8: one run of the sweep keeps, among the non-deleted messages of a
room with pairwise-distinct creation times, exactly those with fewer than
50 strictly newer room-mates — the 50 most recent — and the number of the
room's non-deleted survivors is `min 50 n`. -/
theorem retention_sweep_keeps_newest (table : List MsgRow) (coinId : String)
    (hid : (table.map (fun m => m.id)).Nodup)
    (hts : ((table.filter (roomLive coinId)).map
        (fun m => m.created_at)).Nodup) :
    (∀ m ∈ table, roomLive coinId m = true →
      (m ∈ cleanupOldMessages table ↔ newerCount table coinId m < 50))
    ∧ ((cleanupOldMessages table).filter (roomLive coinId)).length
      = min 50 ((table.filter (roomLive coinId)).length) := by
  have hperm := List.perm_insertionSort byNewest (table.filter (roomLive coinId))
  have hsorted := List.sorted_insertionSort byNewest
    (table.filter (roomLive coinId))
  have hnodupT : (((table.filter (roomLive coinId)).insertionSort
      byNewest).map (fun m => m.created_at)).Nodup :=
    ((hperm.map _).nodup_iff).mpr hts
  have hstrict := pairwise_strict_of_sorted_nodup hsorted hnodupT
  have hsortNodup : ((table.filter (roomLive coinId)).insertionSort
      byNewest).Nodup := List.Nodup.of_map _ hnodupT
  constructor
  · intro m hm hPm
    have hmfl : m ∈ table.filter (roomLive coinId) :=
      List.mem_filter.mpr ⟨hm, hPm⟩
    have hmsort : m ∈ (table.filter (roomLive coinId)).insertionSort
        byNewest := hperm.mem_iff.mpr hmfl
    have hiff := mem_take_sorted_iff 50 hstrict hmsort
    have hcp : ((table.filter (roomLive coinId)).insertionSort
          byNewest).countP (fun x => decide (m.created_at < x.created_at))
        = newerCount table coinId m := hperm.countP_eq _
    constructor
    · intro hclean
      have hcont := (List.mem_filter.mp hclean).2
      have htk := (contains_keepIdsAll_iff table coinId hid hm hPm).mp hcont
      have h8 := hiff.mp htk
      rwa [hcp] at h8
    · intro hcnt
      have h8 : ((table.filter (roomLive coinId)).insertionSort
          byNewest).countP
          (fun x => decide (m.created_at < x.created_at)) < 50 := by
        rw [hcp]
        exact hcnt
      have htk := hiff.mpr h8
      exact List.mem_filter.mpr
        ⟨hm, (contains_keepIdsAll_iff table coinId hid hm hPm).mpr htk⟩
  · have hpoint : ∀ a ∈ table.filter (roomLive coinId),
        (keepIdsAll table).contains a.id
          = (((table.filter (roomLive coinId)).insertionSort
              byNewest).take 50).elem a := by
      intro a ha
      have hatab := (List.mem_filter.mp ha).1
      have haP := (List.mem_filter.mp ha).2
      have hiff2 := contains_keepIdsAll_iff table coinId hid hatab haP
      by_cases hmem : a ∈ ((table.filter (roomLive coinId)).insertionSort
          byNewest).take 50
      · rw [hiff2.mpr hmem, List.elem_iff.mpr hmem]
      · have h1 : (keepIdsAll table).contains a.id = false := by
          rw [Bool.eq_false_iff]
          intro hh
          exact hmem (hiff2.mp hh)
        have h2 : (((table.filter (roomLive coinId)).insertionSort
            byNewest).take 50).elem a = false := by
          rw [Bool.eq_false_iff]
          intro hh
          exact hmem (List.elem_iff.mp hh)
        rw [h1, h2]
    calc ((cleanupOldMessages table).filter (roomLive coinId)).length
        = (cleanupOldMessages table).countP (roomLive coinId) := by
          rw [List.countP_eq_length_filter]
      _ = table.countP
            (fun a => roomLive coinId a && (keepIdsAll table).contains a.id) := by
          simp [cleanupOldMessages, List.countP_filter]
      _ = table.countP
            (fun a => (keepIdsAll table).contains a.id && roomLive coinId a) := by
          have hfun : (fun a : MsgRow =>
                roomLive coinId a && (keepIdsAll table).contains a.id)
              = (fun a => (keepIdsAll table).contains a.id
                  && roomLive coinId a) := by
            funext a
            exact Bool.and_comm _ _
          rw [hfun]
      _ = (table.filter (roomLive coinId)).countP
            (fun a => (keepIdsAll table).contains a.id) := by
          rw [List.countP_filter]
      _ = (table.filter (roomLive coinId)).countP
            (fun a => (((table.filter (roomLive coinId)).insertionSort
                byNewest).take 50).elem a) := by
          rw [List.countP_eq_length_filter, List.countP_eq_length_filter]
          congr 1
          exact List.filter_congr hpoint
      _ = ((table.filter (roomLive coinId)).insertionSort byNewest).countP
            (fun a => (((table.filter (roomLive coinId)).insertionSort
                byNewest).take 50).elem a) := (hperm.countP_eq _).symm
      _ = (((table.filter (roomLive coinId)).insertionSort byNewest).filter
            (fun a => (((table.filter (roomLive coinId)).insertionSort
                byNewest).take 50).elem a)).length := by
          rw [List.countP_eq_length_filter]
      _ = (((table.filter (roomLive coinId)).insertionSort
            byNewest).take 50).length := by
          rw [← List.Nodup.take_eq_filter_mem hsortNodup]
      _ = min 50 ((table.filter (roomLive coinId)).length) := by
          rw [List.length_take, hperm.length_eq]

/-- Sixty non-deleted messages in one room, with distinct ids (of
distinct lengths) and distinct creation times. -/
def bigTable : List MsgRow :=
  (List.range 60).map (fun i =>
    ⟨String.mk (List.replicate (i + 1) 'a'), "bitcoin", "x", i, false,
     "u1", "Alice", "alice@example.com"⟩)

/-- Witness for `retention_sweep_keeps_newest`, on the claim's scenario:
a room with 60 non-deleted messages.  Each survives exactly when fewer
than 50 are newer, and the survivor count is `min 50 60 = 50`, so the 10
oldest are gone. -/
theorem retention_sweep_keeps_newest_witness :
    ((∀ m ∈ bigTable, roomLive "bitcoin" m = true →
      (m ∈ cleanupOldMessages bigTable ↔
        newerCount bigTable "bitcoin" m < 50))
    ∧ ((cleanupOldMessages bigTable).filter (roomLive "bitcoin")).length
      = min 50 ((bigTable.filter (roomLive "bitcoin")).length))
    ∧ (bigTable.filter (roomLive "bitcoin")).length = 60 :=
  ⟨retention_sweep_keeps_newest bigTable "bitcoin" (by decide) (by decide),
   by decide⟩

/-! ### C9: message validation limits (REST vs realtime entry point) -/

/-- Joi `messageSchema` of src/api/middleware/auth.ts:
`coinId: Joi.string().required()` (a required non-empty string) and
`content: Joi.string().min(1).max(1000).required()`.  Joi checks the raw
string length; it does not trim. -/
def messageSchemaValid (coinId content : String) : Bool :=
  coinId != "" && decide (1 ≤ content.length)
    && decide (content.length ≤ 1000)

/-- Outcome of `POST /api/chat/messages`: an HTTP error status, or a
created row with the stored content. -/
inductive RestResult where
  | reject (status : Nat)
  | created (content : String)
deriving DecidableEq, Repr

/-- The `POST /api/chat/messages` handler: authentication check, Joi
validation, user lookup, coin existence check, then insert of the
trimmed content. -/
def restPostMessage (authed : Bool) (coinId content : String)
    (userIdRes : Option String) (coinExists : Bool) (insertOk : Bool) :
    RestResult :=
  if !authed then .reject 401
  else if !(messageSchemaValid coinId content) then .reject 400
  else
    match userIdRes with
    | none => .reject 404
    | some _ =>
        if !coinExists then .reject 404
        else if !insertOk then .reject 500
        else .created (jsTrim content)

/-- C9 counterexample: a whitespace-only body (empty after trimming)
passes the REST validation and, with all collaborators succeeding,
creates a row whose stored content is empty — it is not rejected. -/
theorem rest_whitespace_body_counterexample :
    messageSchemaValid "bitcoin" " " = true
    ∧ restPostMessage true "bitcoin" " " (some "u1") true true
        = RestResult.created "" := by
  decide

/-- C9 amended: a body over the entry point's maximum is always rejected
with no row created (socket: sender-only error and no insert for
empty-after-trim or over-500 bodies; REST: HTTP 400 and never a created
row for empty or over-1000 bodies, in particular for a 1001-character
body) — but the REST entry point checks the untrimmed length, so a
non-empty whitespace-only body is not rejected there. -/
theorem message_validation_limits (sid coinId message : String)
    (userIdRes : Option String) (persistRes : Option MsgRow)
    (authed : Bool) (coinId2 content : String)
    (userIdRes2 : Option String) (coinExists insertOk : Bool) :
    (jsTrim message = "" ∨ 500 < message.length →
      (sendMessage sid coinId message userIdRes persistRes).inserted = none
      ∧ (sendMessage sid coinId message userIdRes persistRes).emits.length
          = 1
      ∧ ∀ e ∈ (sendMessage sid coinId message userIdRes persistRes).emits,
          e.target = .session sid ∧ isErrorEvent e = true)
    ∧ (content.length = 0 ∨ 1000 < content.length →
        (∀ s, restPostMessage authed coinId2 content userIdRes2 coinExists
            insertOk ≠ RestResult.created s)
        ∧ (authed = true →
            restPostMessage authed coinId2 content userIdRes2 coinExists
              insertOk = .reject 400)) := by
  constructor
  · intro h
    have hout : ∃ msg, sendMessage sid coinId message userIdRes persistRes
        = ⟨[⟨.session sid, .error msg⟩], none⟩ := by
      by_cases h1 : coinId = "" ∨ jsTrim message = ""
      · exact ⟨"Coin ID and message are required", by simp [sendMessage, h1]⟩
      · have h2 : 500 < message.length := by
          rcases h with h | h
          · exact absurd (Or.inr h) h1
          · exact h
        exact ⟨"Message too long (max 500 characters)",
          by simp [sendMessage, h1, h2]⟩
    obtain ⟨msg, hmsg⟩ := hout
    refine ⟨by rw [hmsg], by rw [hmsg]; rfl, ?_⟩
    intro e he
    rw [hmsg] at he
    simp only [List.mem_singleton] at he
    subst he
    exact ⟨rfl, rfl⟩
  · intro h
    have hv : messageSchemaValid coinId2 content = false := by
      rcases h with h | h
      · have hn : ¬ (1 ≤ content.length) := by omega
        simp [messageSchemaValid, hn]
      · have hn : ¬ (content.length ≤ 1000) := by omega
        simp [messageSchemaValid, hn]
    constructor
    · intro s
      cases authed with
      | false => simp [restPostMessage]
      | true => simp [restPostMessage, hv]
    · intro ha
      subst ha
      simp [restPostMessage, hv]

/-- Witness for `message_validation_limits`: a whitespace-only socket
message is rejected sender-only with no insert, and a 1001-character REST
body is rejected with HTTP 400. -/
theorem message_validation_limits_witness :
    ((sendMessage "s1" "bitcoin" " " (some "u1") (some demoRow)).inserted
        = none
      ∧ (sendMessage "s1" "bitcoin" " " (some "u1")
          (some demoRow)).emits.length = 1
      ∧ ∀ e ∈ (sendMessage "s1" "bitcoin" " " (some "u1")
          (some demoRow)).emits,
          e.target = .session "s1" ∧ isErrorEvent e = true)
    ∧ restPostMessage true "bitcoin" (String.mk (List.replicate 1001 'a'))
        (some "u1") true true = .reject 400 := by
  have h := message_validation_limits "s1" "bitcoin" " " (some "u1")
    (some demoRow) true "bitcoin" (String.mk (List.replicate 1001 'a'))
    (some "u1") true true
  refine ⟨h.1 (Or.inl (by decide)), (h.2 (Or.inr ?_)).2 rfl⟩
  have hl : (String.mk (List.replicate 1001 'a')).length
      = (List.replicate 1001 'a').length := rfl
  rw [hl, List.length_replicate]
  omega

/-- Witness for `room_membership_invariant` on a concrete trace:
`"s1"` joins bitcoin, `"s2"` joins bitcoin then leaves. -/
theorem room_membership_invariant_witness :
    ("bitcoin" ∈ (exec [Op.join "s1" "bitcoin", Op.join "s2" "bitcoin",
        Op.leave "s2" "bitcoin"]).mem "s1" ↔
      (([Op.join "s1" "bitcoin", Op.join "s2" "bitcoin",
          Op.leave "s2" "bitcoin"]).filter
          (affects "s1" "bitcoin")).getLast?
        = some (Op.join "s1" "bitcoin"))
    ∧ ∀ r1 r2,
        r1 ∈ (exec [Op.join "s1" "bitcoin", Op.join "s2" "bitcoin",
          Op.leave "s2" "bitcoin"]).mem "s1" →
        r2 ∈ (exec [Op.join "s1" "bitcoin", Op.join "s2" "bitcoin",
          Op.leave "s2" "bitcoin"]).mem "s1" →
        r1 = r2 :=
  room_membership_invariant
    [Op.join "s1" "bitcoin", Op.join "s2" "bitcoin",
     Op.leave "s2" "bitcoin"] "s1" "bitcoin"
